import Mathlib

/-!
Formal model of the question generation and scoring engine of the GeoTest
geography quiz (src/app/src/App.tsx).  Each definition is a shallow embedding
of the corresponding TypeScript function; JavaScript numbers are modelled as
exact rationals, nullable values as Option, and the non-deterministic random
draws of shuffles and samplers as explicit lists of naturals supplied as
arguments, so that every concrete run of the source corresponds to some
choice of those arguments.
-/

namespace GeoTest

/-- The closed union of question type tags (App.tsx, type QuestionType). -/
inductive QuestionType where
  | map_tap
  | flag_match
  | capital_mcq
  | neighbor_mcq
  | currency_mcq
  | city_mcq
  | river_mcq
  | language_mcq
  | population_pair
  | area_pair
  | landlocked_mcq
  | peak_mcq
  | range_mcq
  | region_mcq
deriving DecidableEq, Repr

/-- The per-country record fields used by the engine (App.tsx, type
CountryMeta).  population and area are numbers in the source; they are kept
optional here so that the defensive null-coalescing in pickMetricPair keeps
its meaning. -/
structure CountryMeta where
  cca3 : Option String
  name : String
  capital : List String
  region : String
  subregion : String
  population : Option ℚ
  area : Option ℚ
deriving DecidableEq, Repr

/-! ### Fisher-Yates shuffle (App.tsx, function shuffle)

The source draws `j = Math.floor(Math.random() * (i + 1))` each step.  The
draws are modelled by a list of naturals, reduced mod (i + 1) so that every
entry denotes a legal draw; when the list is exhausted the remaining swaps
are skipped (every actual run of the source is matched by a list that is
long enough). -/

/-- Swap the entries at positions i and j of a list (the array swap in the
shuffle loop); out-of-range indices leave the list unchanged. -/
def listSwap (l : List α) (i j : Nat) : List α :=
  match l.get? i, l.get? j with
  | some a, some b => (l.set i b).set j a
  | _, _ => l

/-- The shuffle countdown loop: index i runs from l.length - 1 down to 1. -/
def shuffleLoop (l : List α) : Nat → List Nat → List α
  | 0, _ => l
  | _ + 1, [] => l
  | i + 1, r :: rs => shuffleLoop (listSwap l (i + 1) (r % (i + 2))) i rs

/-- Fisher-Yates shuffle with explicit random draws. -/
def shuffleWith (rs : List Nat) (items : List α) : List α :=
  match items.length with
  | 0 => items
  | n + 1 => shuffleLoop items n rs

/-- Moving the element at position m to the front while writing x in its
place is a permutation of consing x. -/
theorem cons_set_perm (xs : List α) (x : α) :
    ∀ (m : Nat) (h : m < xs.length), (xs.get ⟨m, h⟩ :: xs.set m x).Perm (x :: xs) := by
  induction xs with
  | nil => intro m h; simp at h
  | cons y ys ih =>
    intro m h
    cases m with
    | zero => simpa using List.Perm.swap x y ys
    | succ k =>
      have hk : k < ys.length := by simpa using h
      have s1 : (ys.get ⟨k, hk⟩ :: y :: ys.set k x).Perm (y :: ys.get ⟨k, hk⟩ :: ys.set k x) :=
        List.Perm.swap _ _ _
      have s2 : (y :: ys.get ⟨k, hk⟩ :: ys.set k x).Perm (y :: x :: ys) := (ih k hk).cons y
      have s3 : (y :: x :: ys).Perm (x :: y :: ys) := List.Perm.swap _ _ _
      simpa using (s1.trans s2).trans s3

/-- Writing l[j] at slot i and l[i] at slot j permutes l. -/
theorem set_set_perm (l : List α) :
    ∀ (i j : Nat) (hi : i < l.length) (hj : j < l.length),
      ((l.set i (l.get ⟨j, hj⟩)).set j (l.get ⟨i, hi⟩)).Perm l := by
  induction l with
  | nil => intro i j hi hj; simp at hi
  | cons y ys ih =>
    intro i j hi hj
    cases i with
    | zero =>
      cases j with
      | zero => simp
      | succ m =>
        have hm : m < ys.length := by simpa using hj
        simpa using cons_set_perm ys y m hm
    | succ k =>
      cases j with
      | zero =>
        have hk : k < ys.length := by simpa using hi
        simpa using cons_set_perm ys y k hk
      | succ m =>
        have hk : k < ys.length := by simpa using hi
        have hm : m < ys.length := by simpa using hj
        simpa using (ih k m hk hm).cons y

/-- listSwap yields a permutation of its input. -/
theorem listSwap_perm (l : List α) (i j : Nat) : (listSwap l i j).Perm l := by
  unfold listSwap
  cases hgi : l.get? i with
  | none => simp
  | some a =>
    cases hgj : l.get? j with
    | none => simp
    | some b =>
      have hi : i < l.length := List.get?_eq_some.mp hgi |>.1
      have hj : j < l.length := List.get?_eq_some.mp hgj |>.1
      have ha : l.get ⟨i, hi⟩ = a := by
        have := List.get?_eq_some.mp hgi
        simpa using this.2
      have hb : l.get ⟨j, hj⟩ = b := by
        have := List.get?_eq_some.mp hgj
        simpa using this.2
      have hmain := set_set_perm l i j hi hj
      rw [ha, hb] at hmain
      exact hmain

/-- The shuffle loop yields a permutation of its input. -/
theorem shuffleLoop_perm (l : List α) (n : Nat) (rs : List Nat) :
    (shuffleLoop l n rs).Perm l := by
  induction n generalizing l rs with
  | zero => simp [shuffleLoop]
  | succ i ih =>
    cases rs with
    | nil => simp [shuffleLoop]
    | cons r rest =>
      exact (ih (listSwap l (i + 1) (r % (i + 2))) rest).trans (listSwap_perm l _ _)

/-- The shuffle yields a permutation of its input. -/
theorem shuffleWith_perm (rs : List Nat) (items : List α) :
    (shuffleWith rs items).Perm items := by
  unfold shuffleWith
  cases h : items.length with
  | zero => simp
  | succ n => exact shuffleLoop_perm items n rs

/-! ### Progression engine (App.tsx, handleOptionSelect / handleMapTap answer
branches and getPointsForQuestion) -/

/-- Base points per question type (App.tsx, getPointsForQuestion). -/
def getPointsForQuestion : QuestionType → ℕ
  | .map_tap => 1000
  | .river_mcq => 800
  | .neighbor_mcq | .peak_mcq | .range_mcq => 600
  | .capital_mcq | .currency_mcq | .language_mcq | .city_mcq => 500
  | .flag_match | .population_pair | .area_pair | .landlocked_mcq | .region_mcq => 400

/-- JavaScript Math.round: round half towards positive infinity. -/
def jsRound (q : ℚ) : ℤ := ⌊q + 1 / 2⌋

/-- The session counters mutated by the answer handlers.  Hearts are an
integer (the source decrements without clamping, so negative values are
representable). -/
structure SessionState where
  score : ℤ
  highScore : ℤ
  streak : ℕ
  hearts : ℤ
  level : ℕ
  correctInLevel : ℕ
  gameOver : Bool
deriving DecidableEq, Repr

/-- Initial session counters (the useState initialisers in App.tsx). -/
def initialState : SessionState :=
  { score := 0, highScore := 0, streak := 0, hearts := 3, level := 1,
    correctInLevel := 0, gameOver := false }

/-- The points awarded for a correct answer:
round(base * (1 + streak * 0.1) * (1 + (level - 1) * 0.2)). -/
def pointsFor (t : QuestionType) (streak level : ℕ) : ℤ :=
  jsRound ((getPointsForQuestion t : ℚ) * (1 + (streak : ℚ) * (1 / 10)) *
    (1 + ((level : ℚ) - 1) * (1 / 5)))

/-- Effect of a correct answer, common to handleOptionSelect and
handleMapTap: score and high score update, then the correct-in-level
counter (with level-up and heart restore at 5), then the streak (with a
heart restore at every 5th streak). -/
def applyCorrect (t : QuestionType) (s : SessionState) : SessionState :=
  let pts := pointsFor t s.streak s.level
  let score2 := s.score + pts
  let high2 := if score2 > s.highScore then score2 else s.highScore
  let cNext := s.correctInLevel + 1
  let level2 := if cNext ≥ 5 then s.level + 1 else s.level
  let hearts2 := if cNext ≥ 5 then min (s.hearts + 1) 3 else s.hearts
  let cil2 := if cNext ≥ 5 then 0 else cNext
  let sNext := s.streak + 1
  let hearts3 := if sNext % 5 = 0 then min (hearts2 + 1) 3 else hearts2
  { score := score2, highScore := high2, streak := sNext, hearts := hearts3,
    level := level2, correctInLevel := cil2, gameOver := s.gameOver }

/-- Effect of an incorrect MCQ option selection (handleOptionSelect, else
branch): correctInLevel := 0, streak := 0, hearts decremented, game over
when the new heart count is ≤ 0. -/
def applyIncorrectOption (s : SessionState) : SessionState :=
  { s with
    correctInLevel := 0, streak := 0, hearts := s.hearts - 1,
    gameOver := if s.hearts - 1 ≤ 0 then true else s.gameOver }

/-- Effect of an incorrect map tap (handleMapTap, !isCorrect branches):
hearts decremented with the same game-over rule and correctInLevel := 0,
but the streak is left untouched (the handler never calls
setCurrentStreak(0)). -/
def applyIncorrectMap (s : SessionState) : SessionState :=
  { s with
    correctInLevel := 0, hearts := s.hearts - 1,
    gameOver := if s.hearts - 1 ≤ 0 then true else s.gameOver }

/-- One answer transition.  Answers are only deliverable while the session
is not over: on game over the quiz panel is replaced by the game-over modal
and per the spec the state is terminal until an external restart. -/
inductive Step : SessionState → SessionState → Prop
  | correct (t : QuestionType) (s : SessionState) (h : s.gameOver = false) :
      Step s (applyCorrect t s)
  | wrongOption (s : SessionState) (h : s.gameOver = false) :
      Step s (applyIncorrectOption s)
  | wrongMap (s : SessionState) (h : s.gameOver = false) :
      Step s (applyIncorrectMap s)

/-- States reachable from the initial session state by answer transitions. -/
def Reachable (s : SessionState) : Prop :=
  Relation.ReflTransGen Step initialState s

/-- The hearts invariant maintained by every transition. -/
def HeartsInv (s : SessionState) : Prop :=
  0 ≤ s.hearts ∧ s.hearts ≤ 3 ∧ (s.gameOver = false → 1 ≤ s.hearts)

theorem heartsInv_correct (t : QuestionType) (s : SessionState)
    (hg : s.gameOver = false) (h : HeartsInv s) : HeartsInv (applyCorrect t s) := by
  obtain ⟨h0, h3, hlive⟩ := h
  have h1 : 1 ≤ s.hearts := hlive hg
  unfold HeartsInv applyCorrect
  refine ⟨?_, ?_, ?_⟩
  · dsimp only; split_ifs <;> omega
  · dsimp only; split_ifs <;> omega
  · intro _; dsimp only; split_ifs <;> omega

theorem heartsInv_wrong (s : SessionState) (hg : s.gameOver = false)
    (h : HeartsInv s) (s' : SessionState)
    (hs' : s'.hearts = s.hearts - 1 ∧
      s'.gameOver = (if s.hearts - 1 ≤ 0 then true else s.gameOver)) :
    HeartsInv s' := by
  obtain ⟨h0, h3, hlive⟩ := h
  have h1 : 1 ≤ s.hearts := hlive hg
  obtain ⟨hh, hgo⟩ := hs'
  refine ⟨by omega, by omega, ?_⟩
  intro hfalse
  rw [hgo] at hfalse
  by_cases hc : s.hearts - 1 ≤ 0
  · simp [hc] at hfalse
  · omega

theorem reachable_heartsInv (s : SessionState) (h : Reachable s) : HeartsInv s := by
  induction h with
  | refl => exact ⟨by norm_num [initialState], by norm_num [initialState],
      fun _ => by norm_num [initialState]⟩
  | tail _ hstep ih =>
    cases hstep
    case correct t hg => exact heartsInv_correct t _ hg ih
    case wrongOption hg => exact heartsInv_wrong _ hg ih _ ⟨rfl, rfl⟩
    case wrongMap hg => exact heartsInv_wrong _ hg ih _ ⟨rfl, rfl⟩

/-- C1 (counterexample): the claim says every incorrect answer, including a
wrong map tap, resets the streak to 0.  But after three correct answers
(streak 3, a reachable state) an incorrect map tap leaves the streak at 3:
handleMapTap's incorrect branch never calls setCurrentStreak(0). -/
theorem C1_wrong_map_keeps_streak :
    Reachable (applyCorrect .capital_mcq (applyCorrect .capital_mcq
      (applyCorrect .capital_mcq initialState))) ∧
    (applyCorrect .capital_mcq (applyCorrect .capital_mcq
      (applyCorrect .capital_mcq initialState))).streak = 3 ∧
    (applyIncorrectMap (applyCorrect .capital_mcq (applyCorrect .capital_mcq
      (applyCorrect .capital_mcq initialState)))).streak = 3 := by
  refine ⟨?_, rfl, rfl⟩
  exact Relation.ReflTransGen.tail (Relation.ReflTransGen.tail
    (Relation.ReflTransGen.tail Relation.ReflTransGen.refl
      (Step.correct .capital_mcq _ rfl))
    (Step.correct .capital_mcq _ rfl)) (Step.correct .capital_mcq _ rfl)

/-- C1 (amended): a wrong MCQ option selection sets the streak to 0, the
correct-in-level counter to 0 and decrements hearts by 1; a wrong map tap
sets the correct-in-level counter to 0 and decrements hearts by 1 but
leaves the streak unchanged. -/
theorem C1_incorrect_transitions (s : SessionState) :
    (applyIncorrectOption s).streak = 0 ∧
    (applyIncorrectOption s).correctInLevel = 0 ∧
    (applyIncorrectOption s).hearts = s.hearts - 1 ∧
    (applyIncorrectMap s).correctInLevel = 0 ∧
    (applyIncorrectMap s).hearts = s.hearts - 1 ∧
    (applyIncorrectMap s).streak = s.streak :=
  ⟨rfl, rfl, rfl, rfl, rfl, rfl⟩

/-- C2: in every state reachable from the initial session state by answer
transitions, hearts stays within 0..3 (heart restores are clamped by
min (h + 1) 3), and any state with 0 hearts has the game-over flag set:
the decrementing transition that reaches 0 sets it and the state is then
terminal. -/
theorem C2_hearts_range (s : SessionState) (h : Reachable s) :
    (0 ≤ s.hearts ∧ s.hearts ≤ 3) ∧ (s.hearts = 0 → s.gameOver = true) := by
  obtain ⟨h0, h3, hlive⟩ := reachable_heartsInv s h
  refine ⟨⟨h0, h3⟩, ?_⟩
  intro hz
  cases hsg : s.gameOver
  · have := hlive hsg
    omega
  · rfl

/-- Witness for C2 at the state reached by one wrong answer from the
initial state (hearts 3 → 2). -/
theorem C2_hearts_range_witness :
    (0 ≤ (applyIncorrectOption initialState).hearts ∧
      (applyIncorrectOption initialState).hearts ≤ 3) ∧
    ((applyIncorrectOption initialState).hearts = 0 →
      (applyIncorrectOption initialState).gameOver = true) :=
  C2_hearts_range (applyIncorrectOption initialState)
    (Relation.ReflTransGen.tail Relation.ReflTransGen.refl
      (Step.wrongOption initialState rfl))

/-! ### Difficulty gate: unlocked question types (buildNextQuestion's level
filter, App.tsx 1341-1359) -/

/-- The full rotation list (allTypes in buildNextQuestion). -/
def allTypes : List QuestionType :=
  [.map_tap, .flag_match, .capital_mcq, .neighbor_mcq, .currency_mcq,
   .city_mcq, .river_mcq, .language_mcq, .population_pair, .area_pair,
   .landlocked_mcq, .peak_mcq, .range_mcq, .region_mcq]

/-- The level-gated type list (the levelTypes pushes in buildNextQuestion):
levels 1-2 get the base identity types, level 3 adds geography and pair
comparisons, level 5 detail types, level 7 culture and hydrography, level 9
advanced physical geography. -/
def typesForLevel (level : ℕ) : List QuestionType :=
  [.flag_match, .capital_mcq]
    ++ (if 3 ≤ level then [.map_tap, .neighbor_mcq, .population_pair, .area_pair] else [])
    ++ (if 5 ≤ level then [.city_mcq, .currency_mcq, .landlocked_mcq, .region_mcq] else [])
    ++ (if 7 ≤ level then [.river_mcq, .language_mcq] else [])
    ++ (if 9 ≤ level then [.peak_mcq, .range_mcq] else [])

/-- The rotation actually used: levelTypes unless it is empty (it never is),
in which case allTypes (the defensive fallback in the source). -/
def rotationForLevel (level : ℕ) : List QuestionType :=
  if (typesForLevel level).length > 0 then typesForLevel level else allTypes

theorem mem_ite_nil_mono {p q : Prop} [Decidable p] [Decidable q] (hpq : p → q)
    (l : List α) (t : α) (ht : t ∈ if p then l else []) :
    t ∈ if q then l else [] := by
  by_cases hp : p
  · rw [if_pos hp] at ht
    rw [if_pos (hpq hp)]
    exact ht
  · rw [if_neg hp] at ht
    simp at ht

theorem typesForLevel_mono_le (l1 l2 : ℕ) (h : l1 ≤ l2) (t : QuestionType)
    (ht : t ∈ typesForLevel l1) : t ∈ typesForLevel l2 := by
  unfold typesForLevel at ht ⊢
  simp only [List.mem_append] at ht ⊢
  rcases ht with ((((h0 | h3) | h5) | h7) | h9)
  · exact Or.inl (Or.inl (Or.inl (Or.inl h0)))
  · exact Or.inl (Or.inl (Or.inl (Or.inr
      (mem_ite_nil_mono (fun hp => le_trans hp h) _ t h3))))
  · exact Or.inl (Or.inl (Or.inr (mem_ite_nil_mono (fun hp => le_trans hp h) _ t h5)))
  · exact Or.inl (Or.inr (mem_ite_nil_mono (fun hp => le_trans hp h) _ t h7))
  · exact Or.inr (mem_ite_nil_mono (fun hp => le_trans hp h) _ t h9)

/-- C7: the set of unlocked question types is monotone in the level (for
L1 < L2 every type unlocked at L1 is unlocked at L2), and at level 1 the
unlocked list is exactly the base identity types flag_match and
capital_mcq. -/
theorem C7_types_monotone :
    (∀ l1 l2 : ℕ, l1 < l2 → ∀ t ∈ typesForLevel l1, t ∈ typesForLevel l2) ∧
    typesForLevel 1 = [.flag_match, .capital_mcq] := by
  constructor
  · intro l1 l2 h t ht
    exact typesForLevel_mono_le l1 l2 (Nat.le_of_lt h) t ht
  · rfl

/-- Witness for C7: map_tap is unlocked at level 3 and still at level 9;
flag_match is unlocked at level 1. -/
theorem C7_types_monotone_witness :
    QuestionType.map_tap ∈ typesForLevel 9 ∧
    typesForLevel 1 = [.flag_match, .capital_mcq] :=
  ⟨C7_types_monotone.1 3 9 (by norm_num) QuestionType.map_tap (by decide),
   C7_types_monotone.2⟩

/-! ### Difficulty windows and per-type queues (App.tsx, getPoolForLevel and
getNextCountryForType) -/

/-- Level-dependent prefix slice of a fame-sorted pool (App.tsx,
getPoolForLevel). -/
def getPoolForLevel (pool : List α) (level : ℕ) : List α :=
  if level = 1 then pool.take 20
  else if level = 2 then pool.take 40
  else if level = 3 then pool.take 60
  else if level = 4 then pool.take 80
  else if level = 5 then pool.take 100
  else if level = 6 then pool.take 130
  else if level = 7 then pool.take 160
  else if level = 8 then pool.take 200
  else pool

/-- The queue refill source: currentPool.map(c => c.cca3).filter(Boolean)
(null and empty-string codes are dropped by the Boolean filter). -/
def windowCodes (pool : List CountryMeta) (level : ℕ) : List String :=
  (getPoolForLevel pool level).filterMap (fun c =>
    match c.cca3 with
    | some code => if code = "" then none else some code
    | none => none)

/-- One call of getNextCountryForType for a fixed type: returns the chosen
country and the remaining queue.  The queue is refilled with a shuffle of
the current window's codes only when it is empty; the popped code is looked
up in the current window and falls back to the window's first entry. -/
def getNextCountry (pool : List CountryMeta) (level : ℕ) (queue : List String)
    (rs : List Nat) : Option CountryMeta × List String :=
  if pool.length = 0 then (none, queue)
  else
    let currentPool := getPoolForLevel pool level
    let q1 := if queue.length = 0 then shuffleWith rs (windowCodes pool level) else queue
    match q1 with
    | [] => (currentPool.head?, [])
    | code :: rest =>
      match currentPool.find? (fun c => c.cca3 == some code) with
      | some c => (some c, rest)
      | none => (currentPool.head?, rest)

theorem getPoolForLevel_ne_nil (pool : List α) (level : ℕ) (h : pool ≠ []) :
    getPoolForLevel pool level ≠ [] := by
  unfold getPoolForLevel
  cases pool with
  | nil => exact absurd rfl h
  | cons x xs => split_ifs <;> simp

/-- C10: whenever the backing pool is non-empty, getNextCountryForType
returns some country, and that country is a member of the current
difficulty window getPoolForLevel(pool, level): the popped code is looked
up in the window, and when absent (a stale entry) the window's first
element is returned instead of a country outside the window or null. -/
theorem C10_next_country_in_window (pool : List CountryMeta) (level : ℕ)
    (queue : List String) (rs : List Nat) (hpool : pool ≠ []) :
    ∃ c, (getNextCountry pool level queue rs).1 = some c ∧
      c ∈ getPoolForLevel pool level := by
  have hw : getPoolForLevel pool level ≠ [] := getPoolForLevel_ne_nil pool level hpool
  have hlen : ¬ pool.length = 0 := by simpa using hpool
  unfold getNextCountry
  rw [if_neg hlen]
  dsimp only
  have hhead : ∃ c, (getPoolForLevel pool level).head? = some c ∧
      c ∈ getPoolForLevel pool level := by
    cases hcp : getPoolForLevel pool level with
    | nil => exact absurd hcp hw
    | cons x xs => exact ⟨x, rfl, List.mem_cons_self x xs⟩
  cases hq : (if queue.length = 0 then shuffleWith rs (windowCodes pool level) else queue) with
  | nil => simpa using hhead
  | cons code rest =>
    cases hf : (getPoolForLevel pool level).find? (fun c => c.cca3 == some code) with
    | none =>
      dsimp only
      rw [hf]
      simpa using hhead
    | some c =>
      dsimp only
      rw [hf]
      exact ⟨c, rfl, List.mem_of_find?_eq_some hf⟩

/-- Witness for C10 on a one-country pool with an empty queue. -/
theorem C10_next_country_in_window_witness :
    ∃ c, (getNextCountry [⟨some "FRA", "France", ["Paris"], "Europe",
        "Western Europe", none, none⟩] 1 [] []).1 = some c ∧
      c ∈ getPoolForLevel [(⟨some "FRA", "France", ["Paris"], "Europe",
        "Western Europe", none, none⟩ : CountryMeta)] 1 :=
  C10_next_country_in_window _ 1 [] [] (by simp)

/-! ### Queue lifecycle across level changes (C8)

The per-type queue lives in queueRef and survives level changes: nothing
rebuilds it when the level moves, only emptiness triggers a refill inside
getNextCountryForType.  The states below track one type's queue together
with the current level. -/

structure SelState where
  level : ℕ
  queue : List String
  fillLevel : ℕ
deriving DecidableEq, Repr

/-- One question request: the queue evolves by getNextCountryForType
(refill only when empty, then pop), and the ghost field fillLevel records
the level current at the moment of the last refill — it changes exactly
when the refill branch runs. -/
def askStep (pool : List CountryMeta) (s : SelState) (rs : List Nat) : SelState :=
  { level := s.level,
    queue := (getNextCountry pool s.level s.queue rs).2,
    fillLevel :=
      if pool.length = 0 then s.fillLevel
      else if s.queue.length = 0 then s.level
      else s.fillLevel }

/-- Events affecting one type's queue: a question request (which may refill
and then pops) and a level-up (which leaves queueRef untouched, so the
fill level stays what it was). -/
inductive SelStep (pool : List CountryMeta) : SelState → SelState → Prop
  | ask (s : SelState) (rs : List Nat) : SelStep pool s (askStep pool s rs)
  | levelUp (s : SelState) :
      SelStep pool s ⟨s.level + 1, s.queue, s.fillLevel⟩

/-- Queue states reachable from a fresh session (level 1, empty queue). -/
def SelReachable (pool : List CountryMeta) (s : SelState) : Prop :=
  Relation.ReflTransGen (SelStep pool) ⟨1, [], 1⟩ s

theorem getNextCountry_snd_pool_empty (pool : List CountryMeta) (lvl : ℕ)
    (queue : List String) (rs : List Nat) (hp : pool.length = 0) :
    (getNextCountry pool lvl queue rs).2 = queue := by
  unfold getNextCountry
  rw [if_pos hp]

theorem getNextCountry_snd_refill (pool : List CountryMeta) (lvl : ℕ)
    (queue : List String) (rs : List Nat) (hp : ¬ pool.length = 0)
    (hq : queue.length = 0) :
    ∀ c ∈ (getNextCountry pool lvl queue rs).2, c ∈ windowCodes pool lvl := by
  unfold getNextCountry
  rw [if_neg hp]
  dsimp only
  rw [if_pos hq]
  have hperm := shuffleWith_perm rs (windowCodes pool lvl)
  cases hs : shuffleWith rs (windowCodes pool lvl) with
  | nil => simp
  | cons code rest =>
    rw [hs] at hperm
    have hsub : ∀ c ∈ code :: rest, c ∈ windowCodes pool lvl :=
      fun c hc => hperm.mem_iff.mp hc
    dsimp only
    cases hf : (getPoolForLevel pool lvl).find? (fun c => c.cca3 == some code) with
    | none =>
      intro c hc
      exact hsub c (List.mem_cons_of_mem code (by simpa using hc))
    | some x =>
      intro c hc
      exact hsub c (List.mem_cons_of_mem code (by simpa using hc))

theorem getNextCountry_snd_pop (pool : List CountryMeta) (lvl : ℕ)
    (queue : List String) (rs : List Nat) (hp : ¬ pool.length = 0)
    (hq : ¬ queue.length = 0) :
    ∀ c ∈ (getNextCountry pool lvl queue rs).2, c ∈ queue := by
  unfold getNextCountry
  rw [if_neg hp]
  dsimp only
  rw [if_neg hq]
  cases queue with
  | nil => simp at hq
  | cons code rest =>
    dsimp only
    cases hf : (getPoolForLevel pool lvl).find? (fun c => c.cca3 == some code) with
    | none =>
      intro c hc
      exact List.mem_cons_of_mem code (by simpa using hc)
    | some x =>
      intro c hc
      exact List.mem_cons_of_mem code (by simpa using hc)

theorem askStep_preserves (pool : List CountryMeta) (s : SelState)
    (rs : List Nat)
    (ih : ∀ code ∈ s.queue, code ∈ windowCodes pool s.fillLevel) :
    ∀ code ∈ (askStep pool s rs).queue,
      code ∈ windowCodes pool (askStep pool s rs).fillLevel := by
  dsimp only [askStep]
  intro code hc
  by_cases hp : pool.length = 0
  · rw [if_pos hp]
    rw [getNextCountry_snd_pool_empty pool s.level s.queue rs hp] at hc
    exact ih code hc
  · rw [if_neg hp]
    by_cases hq : s.queue.length = 0
    · rw [if_pos hq]
      exact getNextCountry_snd_refill pool s.level s.queue rs hp hq code hc
    · rw [if_neg hq]
      exact ih code (getNextCountry_snd_pop pool s.level s.queue rs hp hq code hc)

/-- C8 (amended): in every reachable state the queue holds only codes
drawn from the difficulty window that was current when the queue was last
filled (the ghost fillLevel, which moves exactly when the empty queue is
refilled): level changes do not rebuild the queue and pops only shorten
it, so one queue never mixes codes from two different fills. -/
theorem C8_queue_single_window (pool : List CountryMeta) (s : SelState)
    (h : SelReachable pool s) :
    ∀ code ∈ s.queue, code ∈ windowCodes pool s.fillLevel := by
  induction h with
  | refl => simp
  | tail _ hstep ih =>
    cases hstep
    case ask rs => exact askStep_preserves pool _ rs ih
    case levelUp => exact ih

/-- A session-shaped concrete country (only the code matters here). -/
def qc (code : String) : CountryMeta :=
  { cca3 := some code, name := code, capital := [], region := "",
    subregion := "", population := none, area := none }

/-- A pool of 21 countries, so that the level-1 window (first 20) and the
level-2 window (first 40, i.e. all 21) differ. -/
def pool21 : List CountryMeta :=
  [qc "C01", qc "C02", qc "C03", qc "C04", qc "C05", qc "C06", qc "C07",
   qc "C08", qc "C09", qc "C10", qc "C11", qc "C12", qc "C13", qc "C14",
   qc "C15", qc "C16", qc "C17", qc "C18", qc "C19", qc "C20", qc "C21"]

/-- The queue left over after one question at level 1 (filled from the
level-1 window, first entry popped). -/
def staleQueue : List String :=
  ["C02", "C03", "C04", "C05", "C06", "C07", "C08", "C09", "C10", "C11",
   "C12", "C13", "C14", "C15", "C16", "C17", "C18", "C19", "C20"]

/-- C8 (counterexample): the claim says a queue is never popped after the
level has changed without first being rebuilt from the new window.  But in
the reachable state (level 2, queue filled at level 1, fillLevel 1) the
next request pops the stale queue unchanged: the resulting queue is just
its tail, and the new window's code C21 never enters it. -/
theorem C8_stale_queue_popped :
    SelReachable pool21 ⟨2, staleQueue, 1⟩ ∧
    staleQueue ≠ [] ∧
    (getNextCountry pool21 2 staleQueue []).2 = staleQueue.tail ∧
    "C21" ∈ windowCodes pool21 2 ∧
    "C21" ∉ staleQueue := by
  refine ⟨?_, by decide, by decide, by decide, by decide⟩
  have h1 : SelStep pool21 ⟨1, [], 1⟩ ⟨1, staleQueue, 1⟩ := by
    have he : askStep pool21 ⟨1, [], 1⟩ [] = ⟨1, staleQueue, 1⟩ := by decide
    have h := @SelStep.ask pool21 ⟨1, [], 1⟩ []
    rw [he] at h
    exact h
  exact Relation.ReflTransGen.tail (Relation.ReflTransGen.tail
    Relation.ReflTransGen.refl h1) (@SelStep.levelUp pool21 ⟨1, staleQueue, 1⟩)

/-- Witness for C8 (amended) after one ask step on the concrete pool: the
surviving code C02 belongs to the window of the recorded fill level. -/
theorem C8_queue_single_window_witness :
    "C02" ∈ windowCodes pool21 (askStep pool21 ⟨1, [], 1⟩ []).fillLevel :=
  C8_queue_single_window pool21 (askStep pool21 ⟨1, [], 1⟩ [])
    (Relation.ReflTransGen.tail Relation.ReflTransGen.refl
      (@SelStep.ask pool21 ⟨1, [], 1⟩ [])) "C02" (by decide)

/-! ### The question selection loop (App.tsx, buildNextQuestion) -/

/-- The fields of the generated Question objects needed here. -/
structure Question where
  id : String
  type : QuestionType
  prompt : String
  options : Option (List String)
  correctIndex : Option ℤ
deriving DecidableEq, Repr

/-- The placeholder returned when every unlocked type failed to build. -/
def noDataQuestion : Question :=
  { id := "no-data", type := .flag_match, prompt := "No country data available.",
    options := some ["Retry"], correctIndex := some 0 }

/-- The retry loop of buildNextQuestion: fuel = types.length attempts, each
one advancing the rotation cursor and calling the per-type builder once.
Besides the question and the final cursor it returns the list of types the
loop attempted, in order. -/
def tryTypes (build : QuestionType → Option Question)
    (types : List QuestionType) : ℕ → ℕ → Question × ℕ × List QuestionType
  | 0, idx => (noDataQuestion, idx, [])
  | fuel + 1, idx =>
    let t := types.getD (idx % types.length) .flag_match
    match build t with
    | some q => (q, idx + 1, [t])
    | none =>
      let r := tryTypes build types fuel (idx + 1)
      (r.1, r.2.1, t :: r.2.2)

/-- buildNextQuestion: attempt each type of the level's rotation at most
once starting at the rotation cursor, falling back to the placeholder. -/
def buildNextQuestion (build : QuestionType → Option Question)
    (level idx : ℕ) : Question × ℕ × List QuestionType :=
  tryTypes build (rotationForLevel level) (rotationForLevel level).length idx

theorem tryTypes_all_none (build : QuestionType → Option Question)
    (types : List QuestionType) (hb : ∀ t, build t = none) :
    ∀ (fuel idx : ℕ), (tryTypes build types fuel idx).1 = noDataQuestion := by
  intro fuel
  induction fuel with
  | zero => intro idx; rfl
  | succ n ih =>
    intro idx
    unfold tryTypes
    dsimp only
    rw [hb]
    exact ih (idx + 1)

theorem tryTypes_trace_shape (build : QuestionType → Option Question)
    (types : List QuestionType) :
    ∀ (fuel idx : ℕ), ∃ steps ≤ fuel,
      (tryTypes build types fuel idx).2.2 = (List.range steps).map
        (fun k => types.getD ((idx + k) % types.length) .flag_match) := by
  intro fuel
  induction fuel with
  | zero => intro idx; exact ⟨0, le_refl 0, rfl⟩
  | succ n ih =>
    intro idx
    unfold tryTypes
    dsimp only
    cases hb : build (types.getD (idx % types.length) .flag_match) with
    | some q =>
      refine ⟨1, by omega, ?_⟩
      rfl
    | none =>
      obtain ⟨steps, hle, htr⟩ := ih (idx + 1)
      refine ⟨steps + 1, by omega, ?_⟩
      dsimp only
      rw [htr, List.range_succ_eq_map]
      simp only [List.map_cons, List.map_map]
      congr 1
      apply List.map_congr_left
      intro k _
      simp only [Function.comp_apply]
      have he : idx + 1 + k = idx + k.succ := by omega
      rw [he]

theorem nodup_rotation (level : ℕ) : (rotationForLevel level).Nodup := by
  unfold rotationForLevel
  split
  · unfold typesForLevel
    split_ifs <;> decide
  · decide

theorem getD_mod_inj (types : List QuestionType) (hnd : types.Nodup)
    (idx k1 k2 : ℕ) (h1 : k1 < types.length) (h2 : k2 < types.length)
    (he : types.getD ((idx + k1) % types.length) .flag_match =
      types.getD ((idx + k2) % types.length) .flag_match) : k1 = k2 := by
  have hpos : 0 < types.length := lt_of_le_of_lt (Nat.zero_le k1) h1
  have hm1 : (idx + k1) % types.length < types.length := Nat.mod_lt _ hpos
  have hm2 : (idx + k2) % types.length < types.length := Nat.mod_lt _ hpos
  rw [List.getD_eq_get _ _ hm1, List.getD_eq_get _ _ hm2] at he
  have hidx : (idx + k1) % types.length = (idx + k2) % types.length := by
    have := List.nodup_iff_injective_get.mp hnd he
    exact congrArg Fin.val this
  have hmodeq : Nat.ModEq types.length (idx + k1) (idx + k2) := by
    unfold Nat.ModEq
    exact hidx
  have hk : Nat.ModEq types.length k1 k2 := hmodeq.add_left_cancel' idx
  have : k1 % types.length = k2 % types.length := hk
  rwa [Nat.mod_eq_of_lt h1, Nat.mod_eq_of_lt h2] at this

/-- C9: buildNextQuestion totalises the selection loop.  When every
per-type builder yields nothing the returned question is exactly the
placeholder (prompt 'No country data available.', options ['Retry'],
correctIndex 0); the loop attempts each unlocked type at most once per
call (its attempt trace has no duplicate, and no more entries than the
rotation has types).  Being a total Lean function into Question, it always
returns a renderable object and cannot throw. -/
theorem C9_build_next_question (build : QuestionType → Option Question)
    (level idx : ℕ) :
    ((∀ t, build t = none) →
      (buildNextQuestion build level idx).1 = noDataQuestion) ∧
    (buildNextQuestion build level idx).2.2.Nodup ∧
    (buildNextQuestion build level idx).2.2.length ≤
      (rotationForLevel level).length ∧
    noDataQuestion.prompt = "No country data available." ∧
    noDataQuestion.options = some ["Retry"] ∧
    noDataQuestion.correctIndex = some 0 := by
  obtain ⟨steps, hle, htr⟩ := tryTypes_trace_shape build (rotationForLevel level)
    (rotationForLevel level).length idx
  refine ⟨fun hb => tryTypes_all_none build _ hb _ idx, ?_, ?_, rfl, rfl, rfl⟩
  · unfold buildNextQuestion
    rw [htr]
    apply List.Nodup.map_on
    · intro k1 hk1 k2 hk2 he
      exact getD_mod_inj _ (nodup_rotation level) idx k1 k2
        (lt_of_lt_of_le (List.mem_range.mp hk1) hle)
        (lt_of_lt_of_le (List.mem_range.mp hk2) hle) he
    · exact List.nodup_range steps
  · unfold buildNextQuestion
    rw [htr]
    simpa using hle

/-- Witness for C9 with an always-failing builder at level 1, cursor 0. -/
theorem C9_build_next_question_witness :
    (buildNextQuestion (fun _ => none) 1 0).1 = noDataQuestion :=
  (C9_build_next_question (fun _ => none) 1 0).1 (fun _ => rfl)

/-! ### Option set construction (App.tsx, buildOptionSet and
buildOptionSetForCountries)

A JavaScript Set with insertion order is modelled as a duplicate-free list
extended by addOpt.  JS indexOf is modelled by jsIndexOf (-1 when absent). -/

/-- Set.add: append the value unless already present. -/
def addOpt (opts : List String) (v : String) : List String :=
  if v ∈ opts then opts else opts ++ [v]

/-- The distractor loop of buildOptionSet: walk the shuffled pool, skip
empty values and the correct value, add to the set, stop as soon as the
set holds 4 entries. -/
def collectOptions (sel : CountryMeta → String) (correctValue : String) :
    List CountryMeta → List String → List String
  | [], opts => opts
  | c :: rest, opts =>
    let v := sel c
    if v = "" ∨ v = correctValue then collectOptions sel correctValue rest opts
    else
      let opts2 := addOpt opts v
      if opts2.length ≥ 4 then opts2 else collectOptions sel correctValue rest opts2

/-- Array.prototype.indexOf: first index, or -1 when absent. -/
def jsIndexOf (l : List String) (v : String) : ℤ :=
  if v ∈ l then (l.indexOf v : ℤ) else -1

/-- buildOptionSet: seed the set with the correct value (preferredValue if
given, else the selector applied to the subject), collect distractors from
a shuffle of the whole pool, shuffle the final list and locate the correct
index by value equality. -/
def buildOptionSet (pool : List CountryMeta) (correct : CountryMeta)
    (valueSelector : CountryMeta → String) (preferredValue : Option String)
    (rs1 rs2 : List Nat) : List String × ℤ :=
  let correctValue := preferredValue.getD (valueSelector correct)
  let opts0 := addOpt [] correctValue
  let shuffled := shuffleWith rs1 pool
  let opts := collectOptions valueSelector correctValue shuffled opts0
  let finalOptions := shuffleWith rs2 opts
  (finalOptions, jsIndexOf finalOptions correctValue)

/-- buildOptionSetForCountries: same loop with the country name as the
value, plus the parallel cca3 list looked up per final option. -/
def buildOptionSetForCountries (pool : List CountryMeta) (correct : CountryMeta)
    (rs1 rs2 : List Nat) : List String × ℤ × List (Option String) :=
  let correctValue := correct.name
  let opts0 := addOpt [] correctValue
  let shuffled := shuffleWith rs1 pool
  let opts := collectOptions (fun c => c.name) correctValue shuffled opts0
  let finalOptions := shuffleWith rs2 opts
  let optionCca3s := finalOptions.map (fun o =>
    match pool.find? (fun c => c.name == o) with
    | some c => c.cca3
    | none => none)
  (finalOptions, jsIndexOf finalOptions correctValue, optionCca3s)

/-- The distinct non-empty values a pool offers under a selector. -/
def distinctValues (pool : List CountryMeta) (sel : CountryMeta → String) :
    List String :=
  ((pool.map sel).filter (fun v => !(v == ""))).dedup

theorem addOpt_nodup (opts : List String) (v : String) (h : opts.Nodup) :
    (addOpt opts v).Nodup := by
  unfold addOpt
  split_ifs with hv
  · exact h
  · simp [List.nodup_append, h, hv]

theorem addOpt_subset (opts : List String) (v : String) : opts ⊆ addOpt opts v := by
  unfold addOpt
  split_ifs
  · exact fun x hx => hx
  · exact fun x hx => List.mem_append_left _ hx

theorem addOpt_self_mem (opts : List String) (v : String) : v ∈ addOpt opts v := by
  unfold addOpt
  split_ifs with hv
  · exact hv
  · exact List.mem_append_right _ (List.mem_singleton_self v)

theorem addOpt_count_ne (opts : List String) (v cv : String) (h : v ≠ cv) :
    (addOpt opts v).count cv = opts.count cv := by
  unfold addOpt
  split_ifs
  · rfl
  · simp [List.count_append, List.count_singleton', h]

theorem addOpt_mem_src (x : String) (opts : List String) (v : String)
    (h : x ∈ addOpt opts v) : x ∈ opts ∨ x = v := by
  unfold addOpt at h
  split_ifs at h
  · exact Or.inl h
  · rcases List.mem_append.mp h with h1 | h1
    · exact Or.inl h1
    · exact Or.inr (List.mem_singleton.mp h1)

theorem addOpt_length_le (opts : List String) (v : String) :
    (addOpt opts v).length ≤ opts.length + 1 := by
  unfold addOpt
  split_ifs <;> simp

theorem collectOptions_cons (sel : CountryMeta → String) (cv : String)
    (c0 : CountryMeta) (rest : List CountryMeta) (opts : List String) :
    collectOptions sel cv (c0 :: rest) opts =
      if sel c0 = "" ∨ sel c0 = cv then collectOptions sel cv rest opts
      else if (addOpt opts (sel c0)).length ≥ 4 then addOpt opts (sel c0)
      else collectOptions sel cv rest (addOpt opts (sel c0)) := rfl

theorem collect_nodup (sel : CountryMeta → String) (cv : String) :
    ∀ (l : List CountryMeta) (opts : List String), opts.Nodup →
      (collectOptions sel cv l opts).Nodup := by
  intro l
  induction l with
  | nil => intro opts h; exact h
  | cons c rest ih =>
    intro opts h
    unfold collectOptions
    dsimp only
    split_ifs with h1 h2
    · exact ih opts h
    · exact addOpt_nodup opts (sel c) h
    · exact ih _ (addOpt_nodup opts (sel c) h)

theorem collect_subset (sel : CountryMeta → String) (cv : String) :
    ∀ (l : List CountryMeta) (opts : List String),
      opts ⊆ collectOptions sel cv l opts := by
  intro l
  induction l with
  | nil => intro opts; exact fun x hx => hx
  | cons c rest ih =>
    intro opts
    unfold collectOptions
    dsimp only
    split_ifs with h1 h2
    · exact ih opts
    · exact addOpt_subset opts (sel c)
    · exact fun x hx => ih _ (addOpt_subset opts (sel c) hx)

theorem collect_count (sel : CountryMeta → String) (cv : String) :
    ∀ (l : List CountryMeta) (opts : List String),
      (collectOptions sel cv l opts).count cv = opts.count cv := by
  intro l
  induction l with
  | nil => intro opts; rfl
  | cons c rest ih =>
    intro opts
    unfold collectOptions
    dsimp only
    split_ifs with h1 h2
    · exact ih opts
    · have hne : sel c ≠ cv := by
        intro he
        exact h1 (Or.inr he)
      exact addOpt_count_ne opts (sel c) cv hne
    · have hne : sel c ≠ cv := by
        intro he
        exact h1 (Or.inr he)
      rw [ih _, addOpt_count_ne opts (sel c) cv hne]

theorem collect_len_le (sel : CountryMeta → String) (cv : String) :
    ∀ (l : List CountryMeta) (opts : List String), opts.length < 4 →
      (collectOptions sel cv l opts).length ≤ 4 := by
  intro l
  induction l with
  | nil =>
    intro opts h
    show opts.length ≤ 4
    omega
  | cons c rest ih =>
    intro opts h
    rw [collectOptions_cons]
    split_ifs with h1 h2
    · exact ih opts h
    · have := addOpt_length_le opts (sel c)
      omega
    · exact ih _ (by omega)

theorem collect_mem_src (sel : CountryMeta → String) (cv : String) :
    ∀ (l : List CountryMeta) (opts : List String) (x : String),
      x ∈ collectOptions sel cv l opts →
      x ∈ opts ∨ ∃ c ∈ l, sel c = x ∧ x ≠ "" ∧ x ≠ cv := by
  intro l
  induction l with
  | nil => intro opts x hx; exact Or.inl hx
  | cons c rest ih =>
    intro opts x hx
    unfold collectOptions at hx
    dsimp only at hx
    split_ifs at hx with h1 h2
    · rcases ih opts x hx with h | ⟨c', hc', he⟩
      · exact Or.inl h
      · exact Or.inr ⟨c', List.mem_cons_of_mem c hc', he⟩
    · rcases addOpt_mem_src x opts (sel c) hx with h | h
      · exact Or.inl h
      · push_neg at h1
        exact Or.inr ⟨c, List.mem_cons_self c rest, h.symm, by
          rw [h]; exact h1.1, by rw [h]; exact h1.2⟩
    · rcases ih _ x hx with h | ⟨c', hc', he⟩
      · rcases addOpt_mem_src x opts (sel c) h with h' | h'
        · exact Or.inl h'
        · push_neg at h1
          exact Or.inr ⟨c, List.mem_cons_self c rest, h'.symm, by
            rw [h']; exact h1.1, by rw [h']; exact h1.2⟩
      · exact Or.inr ⟨c', List.mem_cons_of_mem c hc', he⟩

theorem collect_complete (sel : CountryMeta → String) (cv : String) :
    ∀ (l : List CountryMeta) (opts : List String),
      (collectOptions sel cv l opts).length < 4 →
      ∀ c ∈ l, sel c ≠ "" → sel c ≠ cv →
        sel c ∈ collectOptions sel cv l opts := by
  intro l
  induction l with
  | nil => intro opts _ c hc; exact absurd hc (List.not_mem_nil c)
  | cons c0 rest ih =>
    intro opts hlen c hc hne hncv
    by_cases h1 : sel c0 = "" ∨ sel c0 = cv
    · have hstep : collectOptions sel cv (c0 :: rest) opts
          = collectOptions sel cv rest opts := by
        rw [collectOptions_cons, if_pos h1]
      rw [hstep] at hlen ⊢
      rcases List.mem_cons.mp hc with he | hmem
      · exfalso
        rcases h1 with h1 | h1
        · exact hne (he ▸ h1)
        · exact hncv (he ▸ h1)
      · exact ih opts hlen c hmem hne hncv
    · by_cases h2 : (addOpt opts (sel c0)).length ≥ 4
      · have hstep : collectOptions sel cv (c0 :: rest) opts
            = addOpt opts (sel c0) := by
          rw [collectOptions_cons, if_neg h1, if_pos h2]
        rw [hstep] at hlen
        omega
      · have hstep : collectOptions sel cv (c0 :: rest) opts
            = collectOptions sel cv rest (addOpt opts (sel c0)) := by
          rw [collectOptions_cons, if_neg h1, if_neg h2]
        rw [hstep] at hlen ⊢
        rcases List.mem_cons.mp hc with he | hmem
        · subst he
          exact collect_subset sel cv rest _ (addOpt_self_mem opts (sel c))
        · exact ih _ hlen c hmem hne hncv

/-- Core facts about the final option list of buildOptionSet (after the
final shuffle): it is duplicate-free, holds the correct value exactly once
and, when the pool offers at least 4 distinct non-empty values, has
exactly 4 entries. -/
theorem finOptions_props (pool : List CountryMeta) (sel : CountryMeta → String)
    (cv : String) (rs1 rs2 : List Nat) :
    (shuffleWith rs2 (collectOptions sel cv (shuffleWith rs1 pool)
        (addOpt [] cv))).Nodup ∧
    (shuffleWith rs2 (collectOptions sel cv (shuffleWith rs1 pool)
        (addOpt [] cv))).count cv = 1 ∧
    (4 ≤ (distinctValues pool sel).length →
      (shuffleWith rs2 (collectOptions sel cv (shuffleWith rs1 pool)
        (addOpt [] cv))).length = 4) := by
  have h0 : addOpt [] cv = [cv] := rfl
  have hperm2 := shuffleWith_perm rs2 (collectOptions sel cv (shuffleWith rs1 pool)
    (addOpt [] cv))
  have hnodup : (collectOptions sel cv (shuffleWith rs1 pool) (addOpt [] cv)).Nodup := by
    apply collect_nodup
    rw [h0]
    exact List.nodup_singleton cv
  have hcount : (collectOptions sel cv (shuffleWith rs1 pool) (addOpt [] cv)).count cv
      = 1 := by
    rw [collect_count, h0]
    simp
  refine ⟨hperm2.nodup_iff.mpr hnodup, by rw [hperm2.count_eq]; exact hcount, ?_⟩
  intro hd
  have hlen4 : (collectOptions sel cv (shuffleWith rs1 pool) (addOpt [] cv)).length ≤ 4 := by
    apply collect_len_le
    rw [h0]
    simp
  rw [hperm2.length_eq]
  by_contra hne
  have hlt : (collectOptions sel cv (shuffleWith rs1 pool) (addOpt [] cv)).length < 4 := by
    omega
  -- every qualifying distinct value of the pool made it into the set
  have hcompl := collect_complete sel cv (shuffleWith rs1 pool) (addOpt [] cv) hlt
  have hperm1 := shuffleWith_perm rs1 pool
  set D := distinctValues pool sel with hD
  set opts := collectOptions sel cv (shuffleWith rs1 pool) (addOpt [] cv) with hopts
  have hDsub : ∀ v ∈ D.filter (fun v => !(v == cv)), v ∈ opts := by
    intro v hv
    obtain ⟨hvD, hvne⟩ := List.mem_filter.mp hv
    have hvcv : v ≠ cv := by simpa using hvne
    rw [hD] at hvD
    unfold distinctValues at hvD
    rw [List.mem_dedup, List.mem_filter] at hvD
    obtain ⟨hvmap, hvempty⟩ := hvD
    obtain ⟨c, hc, hcv⟩ := List.mem_map.mp hvmap
    have hcs : c ∈ shuffleWith rs1 pool := hperm1.mem_iff.mpr hc
    have := hcompl c hcs (by rw [hcv]; simpa using hvempty) (by rw [hcv]; exact hvcv)
    rwa [hcv] at this
  have hcvopts : cv ∈ opts := by
    apply collect_subset
    rw [h0]
    exact List.mem_singleton_self cv
  have hSnodup : (D.filter (fun v => !(v == cv))).Nodup := by
    apply List.Nodup.filter
    rw [hD]
    exact List.nodup_dedup _
  have hcvS : cv ∉ D.filter (fun v => !(v == cv)) := by
    intro hmem
    have := (List.mem_filter.mp hmem).2
    simp at this
  have hDcv : (D.filter (fun v => v == cv)).length ≤ 1 := by
    have hsub : (D.filter (fun v => v == cv)).Nodup := by
      apply List.Nodup.filter
      rw [hD]
      exact List.nodup_dedup _
    cases hc : D.filter (fun v => v == cv) with
    | nil => simp
    | cons x xs =>
      cases hxs : xs with
      | nil => simp
      | cons y ys =>
        exfalso
        have hxmem : x ∈ D.filter (fun v => v == cv) := by
          rw [hc]
          exact List.mem_cons_self x xs
        have hx : x == cv := (List.mem_filter.mp hxmem).2
        have hy : y == cv := by
          have hymem : y ∈ D.filter (fun v => v == cv) := by
            rw [hc, hxs]
            exact List.mem_cons_of_mem x (List.mem_cons_self y ys)
          exact (List.mem_filter.mp hymem).2
        have hxy : x = y := by
          have hx' : x = cv := by simpa using hx
          have hy' : y = cv := by simpa using hy
          rw [hx', hy']
        rw [hc, hxs] at hsub
        rw [hxy] at hsub
        simp at hsub
  have hSlen : 3 ≤ (D.filter (fun v => !(v == cv))).length := by
    have := List.length_eq_length_filter_add (l := D) (fun v => v == cv)
    omega
  -- package into a Finset to bound the size of opts from below
  have hTsub : insert cv (D.filter (fun v => !(v == cv))).toFinset ⊆ opts.toFinset := by
    intro x hx
    rcases Finset.mem_insert.mp hx with hx | hx
    · rw [hx]
      exact List.mem_toFinset.mpr hcvopts
    · exact List.mem_toFinset.mpr (hDsub x (List.mem_toFinset.mp hx))
  have hTcard : (insert cv (D.filter (fun v => !(v == cv))).toFinset).card
      = (D.filter (fun v => !(v == cv))).length + 1 := by
    rw [Finset.card_insert_of_not_mem (by
      intro hmem
      exact hcvS (List.mem_toFinset.mp hmem))]
    rw [List.toFinset_card_of_nodup hSnodup]
  have hle := Finset.card_le_card hTsub
  have hfin := List.toFinset_card_le (l := opts)
  omega

/-- JS indexOf on a list holding v exactly once: the returned index is a
valid position and reads back v. -/
theorem jsIndexOf_of_count_one (l : List String) (v : String)
    (h : l.count v = 1) :
    ∃ ix : ℕ, jsIndexOf l v = (ix : ℤ) ∧ l.get? ix = some v := by
  have hm : v ∈ l := List.count_pos_iff.mp (by omega)
  refine ⟨l.indexOf v, ?_, ?_⟩
  · unfold jsIndexOf
    rw [if_pos hm]
  · have hlt : l.indexOf v < l.length := List.indexOf_lt_length.mpr hm
    rw [List.get?_eq_getElem?, List.getElem?_eq_getElem hlt]
    exact congrArg some (List.getElem_indexOf hlt)

/-- C3: whenever the pool offers at least 4 distinct non-empty values
under the selector, buildOptionSet (and buildOptionSetForCountries for
country names) returns exactly 4 distinct option labels; and for every
pool whatsoever the options contain the correct value exactly once and
correctIndex is its index in the returned array. -/
theorem C3_option_set_shape (pool : List CountryMeta) (correct : CountryMeta)
    (sel : CountryMeta → String) (pref : Option String) (rs1 rs2 : List Nat) :
    ((4 ≤ (distinctValues pool sel).length →
        (buildOptionSet pool correct sel pref rs1 rs2).1.length = 4) ∧
      (buildOptionSet pool correct sel pref rs1 rs2).1.Nodup ∧
      (buildOptionSet pool correct sel pref rs1 rs2).1.count
        (pref.getD (sel correct)) = 1 ∧
      ∃ ix : ℕ, (buildOptionSet pool correct sel pref rs1 rs2).2 = (ix : ℤ) ∧
        (buildOptionSet pool correct sel pref rs1 rs2).1.get? ix =
          some (pref.getD (sel correct))) ∧
    ((4 ≤ (distinctValues pool (fun c => c.name)).length →
        (buildOptionSetForCountries pool correct rs1 rs2).1.length = 4) ∧
      (buildOptionSetForCountries pool correct rs1 rs2).1.Nodup ∧
      (buildOptionSetForCountries pool correct rs1 rs2).1.count correct.name = 1 ∧
      ∃ ix : ℕ, (buildOptionSetForCountries pool correct rs1 rs2).2.1 = (ix : ℤ) ∧
        (buildOptionSetForCountries pool correct rs1 rs2).1.get? ix =
          some correct.name) := by
  obtain ⟨hnd1, hct1, hlen1⟩ :=
    finOptions_props pool sel (pref.getD (sel correct)) rs1 rs2
  obtain ⟨hnd2, hct2, hlen2⟩ :=
    finOptions_props pool (fun c => c.name) correct.name rs1 rs2
  refine ⟨⟨hlen1, hnd1, hct1, ?_⟩, ⟨hlen2, hnd2, hct2, ?_⟩⟩
  · exact jsIndexOf_of_count_one _ _ hct1
  · exact jsIndexOf_of_count_one _ _ hct2

/-- France with four other countries with distinct known capitals. -/
def cFRA : CountryMeta :=
  { cca3 := some "FRA", name := "France", capital := ["Paris"],
    region := "Europe", subregion := "Western Europe",
    population := none, area := none }

def c3pool : List CountryMeta :=
  [cFRA,
   { cca3 := some "DEU", name := "Germany", capital := ["Berlin"],
     region := "Europe", subregion := "Western Europe",
     population := none, area := none },
   { cca3 := some "ESP", name := "Spain", capital := ["Madrid"],
     region := "Europe", subregion := "Southern Europe",
     population := none, area := none },
   { cca3 := some "ITA", name := "Italy", capital := ["Rome"],
     region := "Europe", subregion := "Southern Europe",
     population := none, area := none },
   { cca3 := some "PRT", name := "Portugal", capital := ["Lisbon"],
     region := "Europe", subregion := "Southern Europe",
     population := none, area := none }]

/-- Witness for C3 on the concrete 5-capital pool. -/
theorem C3_option_set_shape_witness :
    4 ≤ (distinctValues c3pool (fun c => c.capital.headD "")).length ∧
    (buildOptionSet c3pool cFRA (fun c => c.capital.headD "") none [] []).1.length
      = 4 :=
  ⟨by decide,
    (C3_option_set_shape c3pool cFRA (fun c => c.capital.headD "") none
      [] []).1.1 (by decide)⟩

/-- The C4 fixture: subject France (region Europe) with three same-region
countries carrying distinct non-empty capitals, plus Japan from another
region sitting at the front of the (identity-) shuffled pool. -/
def c4x : CountryMeta :=
  { cca3 := some "FRA", name := "France", capital := ["Pa"],
    region := "Europe", subregion := "W", population := none, area := none }

def c4pool : List CountryMeta :=
  [{ cca3 := some "JPN", name := "Japan", capital := ["Tokyo"],
     region := "Asia", subregion := "E", population := none, area := none },
   c4x,
   { cca3 := some "DEU", name := "Germany", capital := ["P1"],
     region := "Europe", subregion := "W", population := none, area := none },
   { cca3 := some "ESP", name := "Spain", capital := ["P2"],
     region := "Europe", subregion := "S", population := none, area := none },
   { cca3 := some "ITA", name := "Italy", capital := ["P3"],
     region := "Europe", subregion := "S", population := none, area := none }]

/-- C4 (counterexample): the claim says that with at least 3 same-region
distractor candidates available, buildOptionSet draws its distractors from
those candidates.  Here Europe offers 3 qualifying candidates, yet the
returned options include "Tokyo", whose only source country is in Asia:
buildOptionSet has no region filter at all. -/
theorem C4_out_of_region_distractor :
    3 ≤ (c4pool.filter (fun c => c.region == c4x.region
        && !(c.capital.headD "" == "") && !(c.capital.headD "" == "Pa"))).length ∧
    "Tokyo" ∈ (buildOptionSet c4pool c4x (fun c => c.capital.headD "") none [] []).1 ∧
    (∀ c ∈ c4pool, c.capital.headD "" = "Tokyo" → ¬ c.region = c4x.region) :=
  ⟨by decide, by decide, by decide⟩

/-- C4 (amended): buildOptionSet and buildOptionSetForCountries have no
region or subregion preference: distractors are drawn from a shuffle of
the whole pool, so every returned option is the correct value or the
selector value of some pool member, with no same-region restriction. -/
theorem C4_distractors_from_whole_pool (pool : List CountryMeta)
    (correct : CountryMeta) (sel : CountryMeta → String) (pref : Option String)
    (rs1 rs2 : List Nat) :
    (∀ v ∈ (buildOptionSet pool correct sel pref rs1 rs2).1,
      v = pref.getD (sel correct) ∨ ∃ c ∈ pool, sel c = v) ∧
    (∀ v ∈ (buildOptionSetForCountries pool correct rs1 rs2).1,
      v = correct.name ∨ ∃ c ∈ pool, c.name = v) := by
  have main : ∀ (s : CountryMeta → String) (cv : String),
      ∀ v ∈ shuffleWith rs2 (collectOptions s cv (shuffleWith rs1 pool)
        (addOpt [] cv)), v = cv ∨ ∃ c ∈ pool, s c = v := by
    intro s cv v hv
    have hv2 := (shuffleWith_perm rs2 _).mem_iff.mp hv
    rcases collect_mem_src s cv _ _ v hv2 with h | ⟨c, hc, hsel, _, _⟩
    · left
      have h' : v ∈ [cv] := h
      simpa using h'
    · right
      exact ⟨c, (shuffleWith_perm rs1 pool).mem_iff.mp hc, hsel⟩
  exact ⟨main sel (pref.getD (sel correct)), main (fun c => c.name) correct.name⟩

/-- Witness for C4 (amended): Tokyo is the capital of a pool member. -/
theorem C4_distractors_from_whole_pool_witness :
    "Tokyo" = (none : Option String).getD (c4x.capital.headD "") ∨
    ∃ c ∈ c4pool, c.capital.headD "" = "Tokyo" :=
  (C4_distractors_from_whole_pool c4pool c4x (fun c => c.capital.headD "")
    none [] []).1 "Tokyo" (by decide)

/-! ### Metric pair sampling (App.tsx, pickMetricPair) -/

/-- The random-attempt phase: each attempt draws two indices into the
shuffled pool, rejecting same-country draws, zero/missing metric values
and ratios outside the (1.05, 5.0) window.  The source runs exactly 50
attempts; the attempts list models those draws. -/
def attemptPhase (shuffled : List CountryMeta) (sel : CountryMeta → Option ℚ) :
    List (Nat × Nat) → Option (CountryMeta × CountryMeta)
  | [] => none
  | (ia, ib) :: rest =>
    match shuffled.get? ia, shuffled.get? ib with
    | some a, some b =>
      if a.cca3 = b.cca3 then attemptPhase shuffled sel rest
      else
        let valA := (sel a).getD 0
        let valB := (sel b).getD 0
        if valA = 0 ∨ valB = 0 then attemptPhase shuffled sel rest
        else if 21 / 20 < max valA valB / min valA valB ∧
            max valA valB / min valA valB < 5 then some (a, b)
        else attemptPhase shuffled sel rest
    | _, _ => attemptPhase shuffled sel rest

/-- Inner loop of the exhaustive fallback scan: pair the fixed first
element with each later one, returning the first valid pair. -/
def innerScan (sel : CountryMeta → Option ℚ) (a : CountryMeta) :
    List CountryMeta → Option (CountryMeta × CountryMeta)
  | [] => none
  | b :: rest =>
    if 0 < (sel a).getD 0 ∧ 0 < (sel b).getD 0 ∧ sel a ≠ sel b then some (a, b)
    else innerScan sel a rest

/-- Outer loop of the exhaustive fallback scan over index pairs i < j. -/
def outerScan (sel : CountryMeta → Option ℚ) :
    List CountryMeta → Option (CountryMeta × CountryMeta)
  | [] => none
  | a :: rest =>
    match innerScan sel a rest with
    | some p => some p
    | none => outerScan sel rest

/-- pickMetricPair: refuse pools of fewer than 2 entries, then try the
bounded random-attempt phase on a shuffle, then the exhaustive scan. -/
def pickMetricPair (pool : List CountryMeta) (sel : CountryMeta → Option ℚ)
    (rs : List Nat) (attempts : List (Nat × Nat)) :
    Option (CountryMeta × CountryMeta) :=
  if pool.length < 2 then none
  else
    let shuffled := shuffleWith rs pool
    match attemptPhase shuffled sel attempts with
    | some p => some p
    | none => outerScan sel shuffled

/-- The fallback-scan acceptance condition. -/
def validPair (sel : CountryMeta → Option ℚ) (a b : CountryMeta) : Prop :=
  0 < (sel a).getD 0 ∧ 0 < (sel b).getD 0 ∧ sel a ≠ sel b

theorem attemptPhase_ratio (shuffled : List CountryMeta)
    (sel : CountryMeta → Option ℚ) :
    ∀ (attempts : List (Nat × Nat)) (a b : CountryMeta),
      attemptPhase shuffled sel attempts = some (a, b) →
      (sel a).getD 0 ≠ 0 ∧ (sel b).getD 0 ≠ 0 ∧
      21 / 20 < max ((sel a).getD 0) ((sel b).getD 0) /
        min ((sel a).getD 0) ((sel b).getD 0) ∧
      max ((sel a).getD 0) ((sel b).getD 0) /
        min ((sel a).getD 0) ((sel b).getD 0) < 5 := by
  intro attempts
  induction attempts with
  | nil => intro a b h; exact absurd h (by simp [attemptPhase])
  | cons p rest ih =>
    intro a b h
    obtain ⟨ia, ib⟩ := p
    unfold attemptPhase at h
    cases hga : shuffled.get? ia with
    | none => rw [hga] at h; exact ih a b h
    | some a' =>
      cases hgb : shuffled.get? ib with
      | none => rw [hga, hgb] at h; exact ih a b h
      | some b' =>
        rw [hga, hgb] at h
        dsimp only at h
        split_ifs at h with h1 h2 h3
        · exact ih a b h
        · exact ih a b h
        · have hab : a' = a ∧ b' = b := by
            have := Option.some.inj h
            exact ⟨congrArg Prod.fst this, congrArg Prod.snd this⟩
          obtain ⟨ha', hb'⟩ := hab
          subst ha'
          subst hb'
          push_neg at h2
          exact ⟨h2.1, h2.2, h3.1, h3.2⟩
        · exact ih a b h

theorem ratio_window_ne (va vb : ℚ) (hva : va ≠ 0)
    (hr : 21 / 20 < max va vb / min va vb) : va ≠ vb := by
  intro he
  rw [he, max_self, min_self] at hr
  have hvb : vb ≠ 0 := he ▸ hva
  rw [div_self hvb] at hr
  norm_num at hr

theorem innerScan_none (sel : CountryMeta → Option ℚ) (a : CountryMeta) :
    ∀ (l : List CountryMeta), innerScan sel a l = none →
      ∀ b ∈ l, ¬ validPair sel a b := by
  intro l
  induction l with
  | nil => intro _ b hb; exact absurd hb (List.not_mem_nil b)
  | cons b0 rest ih =>
    intro h b hb
    unfold innerScan at h
    by_cases h1 : 0 < (sel a).getD 0 ∧ 0 < (sel b0).getD 0 ∧ sel a ≠ sel b0
    · rw [if_pos h1] at h
      exact Option.noConfusion h
    · rw [if_neg h1] at h
      rcases List.mem_cons.mp hb with he | hmem
      · subst he
        exact h1
      · exact ih h b hmem

theorem innerScan_some (sel : CountryMeta → Option ℚ) (a : CountryMeta) :
    ∀ (l : List CountryMeta) (x y : CountryMeta),
      innerScan sel a l = some (x, y) → validPair sel x y := by
  intro l
  induction l with
  | nil => intro x y h; exact absurd h (by simp [innerScan])
  | cons b0 rest ih =>
    intro x y h
    unfold innerScan at h
    by_cases h1 : 0 < (sel a).getD 0 ∧ 0 < (sel b0).getD 0 ∧ sel a ≠ sel b0
    · rw [if_pos h1] at h
      have hinj := Option.some.inj h
      have hx : a = x := congrArg Prod.fst hinj
      have hy : b0 = y := congrArg Prod.snd hinj
      subst hx
      subst hy
      exact h1
    · rw [if_neg h1] at h
      exact ih x y h

theorem validPair_symm (sel : CountryMeta → Option ℚ) (a b : CountryMeta)
    (h : validPair sel a b) : validPair sel b a :=
  ⟨h.2.1, h.1, fun he => h.2.2 he.symm⟩

theorem outerScan_some (sel : CountryMeta → Option ℚ) :
    ∀ (l : List CountryMeta) (x y : CountryMeta),
      outerScan sel l = some (x, y) → validPair sel x y := by
  intro l
  induction l with
  | nil => intro x y h; exact absurd h (by simp [outerScan])
  | cons a rest ih =>
    intro x y h
    unfold outerScan at h
    cases hi : innerScan sel a rest with
    | some p =>
      rw [hi] at h
      obtain ⟨px, py⟩ := p
      have := Option.some.inj h
      have hx : px = x := congrArg Prod.fst this
      have hy : py = y := congrArg Prod.snd this
      subst hx
      subst hy
      exact innerScan_some sel a rest px py hi
    | none =>
      rw [hi] at h
      exact ih x y h

theorem outerScan_none (sel : CountryMeta → Option ℚ) :
    ∀ (l : List CountryMeta), outerScan sel l = none →
      ∀ a ∈ l, ∀ b ∈ l, ¬ validPair sel a b := by
  intro l
  induction l with
  | nil => intro _ a ha; exact absurd ha (List.not_mem_nil a)
  | cons c rest ih =>
    intro h a ha b hb
    unfold outerScan at h
    cases hi : innerScan sel c rest with
    | some p => rw [hi] at h; simp at h
    | none =>
      rw [hi] at h
      rcases List.mem_cons.mp ha with hea | hma
      · rcases List.mem_cons.mp hb with heb | hmb
        · subst hea
          subst heb
          intro hv
          exact hv.2.2 rfl
        · subst hea
          exact innerScan_none sel a rest hi b hmb
      · rcases List.mem_cons.mp hb with heb | hmb
        · subst heb
          intro hv
          exact innerScan_none sel b rest hi a hma (validPair_symm sel a b hv)
        · exact ih h a hma b hmb

theorem validPair_getD_ne (sel : CountryMeta → Option ℚ) (a b : CountryMeta)
    (h : validPair sel a b) : (sel a).getD 0 ≠ (sel b).getD 0 := by
  obtain ⟨ha, hb, hne⟩ := h
  cases hsa : sel a with
  | none => rw [hsa] at ha; simp at ha
  | some va =>
    cases hsb : sel b with
    | none => rw [hsb] at hb; simp at hb
    | some vb =>
      simp only [Option.getD_some]
      intro he
      apply hne
      rw [hsa, hsb, he]

theorem mem_two_le_length (pool : List CountryMeta) (a b : CountryMeta)
    (ha : a ∈ pool) (hb : b ∈ pool) (hne : a ≠ b) : 2 ≤ pool.length := by
  cases pool with
  | nil => exact absurd ha (List.not_mem_nil a)
  | cons x xs =>
    cases xs with
    | nil =>
      exfalso
      have h1 := List.mem_singleton.mp ha
      have h2 := List.mem_singleton.mp hb
      exact hne (h1.trans h2.symm)
    | cons y ys => simp

/-- C5: pickMetricPair never returns a pair with equal metric values;
pairs accepted by the random-attempt phase have a larger/smaller ratio
strictly between 1.05 and 5.0; and a null result means the pool holds no
two entries with positive (non-missing) and unequal metric values, so the
exhaustive fallback finds a pair whenever one exists. -/
theorem C5_pick_metric_pair (pool : List CountryMeta)
    (sel : CountryMeta → Option ℚ) (rs : List Nat)
    (attempts : List (Nat × Nat)) :
    (∀ a b, pickMetricPair pool sel rs attempts = some (a, b) →
      (sel a).getD 0 ≠ (sel b).getD 0) ∧
    (∀ a b, attemptPhase (shuffleWith rs pool) sel attempts = some (a, b) →
      21 / 20 < max ((sel a).getD 0) ((sel b).getD 0) /
        min ((sel a).getD 0) ((sel b).getD 0) ∧
      max ((sel a).getD 0) ((sel b).getD 0) /
        min ((sel a).getD 0) ((sel b).getD 0) < 5) ∧
    (pickMetricPair pool sel rs attempts = none →
      ∀ a ∈ pool, ∀ b ∈ pool, ¬ validPair sel a b) := by
  refine ⟨?_, ?_, ?_⟩
  · intro a b h
    unfold pickMetricPair at h
    by_cases hlen : pool.length < 2
    · rw [if_pos hlen] at h
      exact Option.noConfusion h
    · rw [if_neg hlen] at h
      dsimp only at h
      cases hat : attemptPhase (shuffleWith rs pool) sel attempts with
      | some p =>
        rw [hat] at h
        obtain ⟨px, py⟩ := p
        have := Option.some.inj h
        have hx : px = a := congrArg Prod.fst this
        have hy : py = b := congrArg Prod.snd this
        subst hx
        subst hy
        obtain ⟨hva, _, hr, _⟩ := attemptPhase_ratio _ sel attempts px py hat
        exact ratio_window_ne _ _ hva hr
      | none =>
        rw [hat] at h
        exact validPair_getD_ne sel a b (outerScan_some sel _ a b h)
  · intro a b h
    obtain ⟨_, _, hr1, hr2⟩ := attemptPhase_ratio _ sel attempts a b h
    exact ⟨hr1, hr2⟩
  · intro h a ha b hb hv
    unfold pickMetricPair at h
    by_cases hlen : pool.length < 2
    · have hne : a ≠ b := by
        intro he
        exact hv.2.2 (congrArg sel he)
      have := mem_two_le_length pool a b ha hb hne
      omega
    · rw [if_neg hlen] at h
      dsimp only at h
      cases hat : attemptPhase (shuffleWith rs pool) sel attempts with
      | some p => rw [hat] at h; simp at h
      | none =>
        rw [hat] at h
        have hperm := shuffleWith_perm rs pool
        exact outerScan_none sel _ h a (hperm.mem_iff.mpr ha) b
          (hperm.mem_iff.mpr hb) hv

/-- Witness for C5: a two-country pool with populations 1,000,000 and
1,500,000; the fallback scan pairs them and the metric values differ. -/
theorem C5_pick_metric_pair_witness :
    ((fun c : CountryMeta => c.population)
        { cca3 := some "AAA", name := "A", capital := [], region := "",
          subregion := "", population := some 1000000, area := none }).getD 0 ≠
    ((fun c : CountryMeta => c.population)
        { cca3 := some "BBB", name := "B", capital := [], region := "",
          subregion := "", population := some 1500000, area := none }).getD 0 :=
  (C5_pick_metric_pair
    [{ cca3 := some "AAA", name := "A", capital := [], region := "",
       subregion := "", population := some 1000000, area := none },
     { cca3 := some "BBB", name := "B", capital := [], region := "",
       subregion := "", population := some 1500000, area := none }]
    (fun c => c.population) [] []).1 _ _ (by decide)

/-! ### Point-in-polygon hit testing (App.tsx, isPointInFeature,
isPointInBBox, isPointInPolygon, isPointInRing, computeBBox)

Coordinates are exact rationals; Number.EPSILON (2^-52), used by the
source to guard horizontal edges, is carried over exactly. -/

structure BBox where
  west : ℚ
  south : ℚ
  east : ℚ
  north : ℚ
deriving DecidableEq, Repr

inductive Geometry where
  | polygon (rings : List (List (ℚ × ℚ)))
  | multiPolygon (polys : List (List (List (ℚ × ℚ))))
deriving DecidableEq, Repr

structure FeatureRecord where
  geometry : Geometry
  bbox : BBox
deriving DecidableEq, Repr

/-- Number.EPSILON = 2^-52. -/
def jsEps : ℚ := 1 / 4503599627370496

def isPointInBBox (lng lat : ℚ) (b : BBox) : Bool :=
  decide (b.west ≤ lng) && decide (lng ≤ b.east) &&
    decide (b.south ≤ lat) && decide (lat ≤ b.north)

/-- The (current, previous) vertex pairs walked by the ray-cast loop
(j starts at the last index). -/
def ringEdges (ring : List (ℚ × ℚ)) : List ((ℚ × ℚ) × (ℚ × ℚ)) :=
  match ring.getLast? with
  | none => []
  | some last => ring.zip (last :: ring.dropLast)

/-- One crossing test of the even-odd ray cast (strict inequality pairing
on the latitudes, epsilon-guarded denominator). -/
def edgeCrosses (p : ℚ × ℚ) (e : (ℚ × ℚ) × (ℚ × ℚ)) : Bool :=
  let xi := e.1.1
  let yi := e.1.2
  let xj := e.2.1
  let yj := e.2.2
  (decide (yi > p.2) != decide (yj > p.2)) &&
    decide (p.1 < (xj - xi) * (p.2 - yi) / (yj - yi + jsEps) + xi)

def isPointInRing (p : ℚ × ℚ) (ring : List (ℚ × ℚ)) : Bool :=
  (ringEdges ring).foldl
    (fun inside e => if edgeCrosses p e then !inside else inside) false

/-- Outer ring must contain the point; no hole may. -/
def isPointInPolygon (p : ℚ × ℚ) (polygon : List (List (ℚ × ℚ))) : Bool :=
  match polygon with
  | [] => false
  | outer :: holes =>
    if !(isPointInRing p outer) then false
    else holes.all (fun hole => !(isPointInRing p hole))

/-- Bounding-box pre-filter, then the ring test (any constituent polygon
of a multipolygon suffices). -/
def isPointInFeature (lng lat : ℚ) (r : FeatureRecord) : Bool :=
  if !(isPointInBBox lng lat r.bbox) then false
  else
    match r.geometry with
    | .polygon rings => isPointInPolygon (lng, lat) rings
    | .multiPolygon polys => polys.any (fun poly => isPointInPolygon (lng, lat) poly)

def geoCoords : Geometry → List (ℚ × ℚ)
  | .polygon rings => rings.join
  | .multiPolygon polys => (polys.map (fun poly => poly.join)).join

/-- computeBBox: envelope of every coordinate of every ring.  The source
seeds the scan with plus/minus infinity; here the fold is seeded with the
first coordinate, which agrees on every non-empty geometry (the empty case
is fixed at the origin box). -/
def computeBBox (g : Geometry) : BBox :=
  match geoCoords g with
  | [] => ⟨0, 0, 0, 0⟩
  | c :: cs =>
    cs.foldl (fun b q =>
      ⟨min b.west q.1, min b.south q.2, max b.east q.1, max b.north q.2⟩)
      ⟨c.1, c.2, c.1, c.2⟩

/-- Twice the signed area of a ring (shoelace over the ring's edges). -/
def shoelaceSum (ring : List (ℚ × ℚ)) : ℚ :=
  ((ringEdges ring).map (fun e => e.2.1 * e.1.2 - e.1.1 * e.2.2)).sum

/-- Modelled from the spec: the area centroid of a simple polygon (the
standard formula Cx = sum (x_i + x_{i+1}) * cross_i / (6 A)), used to state
the claim about "the polygon's centroid"; degenerate zero-area rings map
to the origin. -/
def polygonCentroid (ring : List (ℚ × ℚ)) : ℚ × ℚ :=
  let s := shoelaceSum ring
  if s = 0 then (0, 0)
  else
    (((ringEdges ring).map (fun e =>
        (e.2.1 + e.1.1) * (e.2.1 * e.1.2 - e.1.1 * e.2.2))).sum / (3 * s),
     ((ringEdges ring).map (fun e =>
        (e.2.2 + e.1.2) * (e.2.1 * e.1.2 - e.1.1 * e.2.2))).sum / (3 * s))

/-- Orientation of the triple (a, b, c). -/
def orient (a b c : ℚ × ℚ) : ℚ :=
  (b.1 - a.1) * (c.2 - a.2) - (b.2 - a.2) * (c.1 - a.1)

/-- p lies on the closed segment a-b. -/
def onSeg (a b p : ℚ × ℚ) : Bool :=
  decide (orient a b p = 0) && decide (min a.1 b.1 ≤ p.1) &&
    decide (p.1 ≤ max a.1 b.1) && decide (min a.2 b.2 ≤ p.2) &&
    decide (p.2 ≤ max a.2 b.2)

/-- Closed segments a-b and c-d intersect (proper crossing or touching). -/
def segIntersect (a b c d : ℚ × ℚ) : Bool :=
  let o1 := orient a b c
  let o2 := orient a b d
  let o3 := orient c d a
  let o4 := orient c d b
  (decide (o1 * o2 < 0) && decide (o3 * o4 < 0)) || onSeg a b c ||
    onSeg a b d || onSeg c d a || onSeg c d b

/-- Adjacent edges (sharing exactly one vertex) touch only at that vertex:
the far endpoint of each edge does not lie on the other edge. -/
def adjacentOk (e1 e2 : (ℚ × ℚ) × (ℚ × ℚ)) : Bool :=
  let w :=
    if e1.1 = e2.1 ∨ e1.1 = e2.2 then some e1.1
    else if e1.2 = e2.1 ∨ e1.2 = e2.2 then some e1.2
    else none
  match w with
  | none => false
  | some wv =>
    let f1 := if e1.1 = wv then e1.2 else e1.1
    let f2 := if e2.1 = wv then e2.2 else e2.1
    !(onSeg e2.1 e2.2 f1) && !(onSeg e1.1 e1.2 f2)

/-- Decidable check that a vertex ring bounds a simple (non-self-
intersecting) polygon: at least 3 pairwise-distinct vertices, adjacent
edges meet only at their shared vertex, and non-adjacent edges are
disjoint. -/
def isSimpleRing (ring : List (ℚ × ℚ)) : Bool :=
  let n := ring.length
  let edges := ringEdges ring
  decide (3 ≤ n) && decide ring.Nodup &&
    (List.range n).all (fun i => (List.range n).all (fun j =>
      if i < j then
        let ei := edges.getD i ((0, 0), (0, 0))
        let ej := edges.getD j ((0, 0), (0, 0))
        if j = i + 1 ∨ (i = 0 ∧ j = n - 1) then adjacentOk ei ej
        else !(segIntersect ei.1 ei.2 ej.1 ej.2)
      else true))

/-- A U-shaped (horseshoe) simple polygon whose area centroid falls in the
notch, outside the polygon. -/
def uRing : List (ℚ × ℚ) :=
  [(0, 0), (10, 0), (10, 10), (8, 10), (8, 2), (2, 2), (2, 10), (0, 10)]

def uRecord : FeatureRecord :=
  { geometry := .polygon [uRing], bbox := computeBBox (.polygon [uRing]) }

unseal Rat.mul Rat.add Rat.inv Rat.sub in
/-- C6 (counterexample): for this simple polygon, whose bounding box is
the envelope of its vertices, the hit test at the polygon's centroid
(5, 53/13) returns false: the centroid of a non-convex simple polygon can
fall outside the polygon, and the ray cast correctly rejects it even
though it passes the bounding-box pre-filter. -/
theorem C6_centroid_missed :
    isSimpleRing uRing = true ∧
    uRecord.bbox = computeBBox uRecord.geometry ∧
    polygonCentroid uRing = (5, 53 / 13) ∧
    isPointInBBox 5 (53 / 13) uRecord.bbox = true ∧
    isPointInFeature 5 (53 / 13) uRecord = false :=
  ⟨by decide, rfl, by decide, by decide, by decide⟩

/-- An axis-aligned convex square whose centroid (2, 2) is interior. -/
def sqRing : List (ℚ × ℚ) := [(0, 0), (4, 0), (4, 4), (0, 4)]

def sqRecord : FeatureRecord :=
  { geometry := .polygon [sqRing], bbox := computeBBox (.polygon [sqRing]) }

unseal Rat.mul Rat.add Rat.inv Rat.sub in
/-- C6 (amended): the hit test returns false for every click point lying
outside the target's bounding box; the centroid of a simple polygon is
not always a hit (see the horseshoe counterexample), though for a convex
target such as the square the centroid is a hit. -/
theorem C6_bbox_reject (r : FeatureRecord) (lng lat : ℚ)
    (h : isPointInBBox lng lat r.bbox = false) :
    isPointInFeature lng lat r = false ∧
    polygonCentroid sqRing = (2, 2) ∧
    isPointInFeature 2 2 sqRecord = true := by
  refine ⟨?_, by decide, by decide⟩
  unfold isPointInFeature
  rw [h]
  rfl

unseal Rat.mul Rat.add Rat.inv Rat.sub in
/-- Witness for C6 (amended): (100, 0) lies outside the horseshoe's
bounding box and is rejected. -/
theorem C6_bbox_reject_witness :
    isPointInFeature 100 0 uRecord = false ∧
    isPointInFeature 2 2 sqRecord = true :=
  ⟨(C6_bbox_reject uRecord 100 0 (by decide)).1,
   (C6_bbox_reject uRecord 100 0 (by decide)).2.2⟩

end GeoTest
